import Mathlib

/-!
# Verification of the prefix-notation expression evaluator

Shallow embedding of the two parser variants of the repository
(`src/parser_with_exceptions.cpp` and `src/parser_with_results.cpp`)
and proofs of the specified properties.

Modelling conventions:
* The C++ cursor (`const char* p` / `const char* end`) is embedded as the
  remaining suffix of the input, a `List Char`; advancing the cursor is
  taking the tail of that list.
* `int64_t` values are embedded as `Int` with an explicit two's-complement
  wrap `i64` (reduction modulo 2^64 into `[-2^63, 2^63)`) applied at every
  arithmetic step, and `int64_t` division as `Int.tdiv` (truncation toward
  zero, matching C++ division; `Int.tdiv v 0 = 0` is the embedding's
  convention for the unguarded division by zero).
* The mutually recursive `expression` / `inner_expression` pair is embedded
  with an explicit fuel parameter (`none` = fuel exhausted); termination of
  the C++ recursion is the theorem that fuel `2 * input.length + 2` is
  always sufficient.
* C++ exceptions are embedded as a `Result`-valued return (the thrown
  `Error` aborts the computation, so a throwing call is a call returning
  `Result.error` that every caller propagates); the explicit-result variant
  is embedded with the cursor threaded through every call, including the
  error paths, exactly as the mutable member cursor of the source.
-/

/-- `ErrorKind` from `src/parser.hpp`. -/
inductive ErrorKind where
  | invalidOperator
  | invalidCharacter
  | unexpectedEOF
deriving DecidableEq, Repr

/-- The `Result<T>` union of `src/parser_with_results.cpp` (also used to
embed the thrown `Error` of `src/parser_with_exceptions.cpp`): exactly one
of a success value or an `ErrorKind`. -/
inductive Result (α : Type) where
  | ok (value : α) : Result α
  | error (kind : ErrorKind) : Result α
deriving DecidableEq, Repr

/-- The `Op` enumeration (`Add`, `Sub`, `Mul`, `Div`), identical in both
source variants. -/
inductive Op where
  | add
  | sub
  | mul
  | div
deriving DecidableEq, Repr

/-- Two's-complement wrap of a mathematical integer into the `int64_t`
range `[-2^63, 2^63)`: reduction modulo 2^64. -/
def i64 (n : Int) : Int :=
  (n + 9223372036854775808) % 18446744073709551616 - 9223372036854775808

/-- `std::isdigit` in the C locale: `'0'..'9'`. -/
def isdigit (c : Char) : Bool :=
  decide ('0' ≤ c ∧ c ≤ '9')

/-- `std::iswspace` in the C locale: space and the control characters
`\t`, `\n`, `\v`, `\f`, `\r` (code points 9-13). -/
def iswspace (c : Char) : Bool :=
  decide (c.toNat = 32 ∨ (9 ≤ c.toNat ∧ c.toNat ≤ 13))

/-- `Parser::peek`, identical in both variants: the character at the
cursor, or the sentinel `0` at end of input; never fails, never advances. -/
def peek : List Char → Char
  | [] => Char.ofNat 0
  | c :: _ => c

/-- `Parser::skip_whitespace`, identical in both variants:
`while (iswspace(peek())) get_char();`.  At end of input `peek` yields the
sentinel `0`, which is not whitespace, so the loop stops. -/
def skip_whitespace : List Char → List Char
  | [] => []
  | c :: t => if iswspace c then skip_whitespace t else c :: t

/-- The operator `switch` shared by `Parser::operation` of both variants:
`'+' '-' '*' '/'` map to an `Op`, anything else falls through to the
`InvalidOperator` default. -/
def charToOp (c : Char) : Option Op :=
  if c = '+' then some Op.add
  else if c = '-' then some Op.sub
  else if c = '*' then some Op.mul
  else if c = '/' then some Op.div
  else none

/-- The arithmetic `switch` of `inner_expression`, identical in both
variants, on wrapped `int64_t` arithmetic (`/` is C++ truncating
division). -/
def apply_op (op : Op) (a b : Int) : Int :=
  match op with
  | .add => i64 (a + b)
  | .sub => i64 (a - b)
  | .mul => i64 (a * b)
  | .div => i64 (Int.tdiv a b)

namespace ParserWithExceptions

/-- `Parser::get_char` of the exceptions variant: throws `UnexpectedEOF` at
end of input, otherwise returns `*p++`. -/
def get_char : List Char → Result (Char × List Char)
  | [] => .error .unexpectedEOF
  | c :: t => .ok (c, t)

/-- `Parser::expect_char` of the exceptions variant: `get_char` (whose
`UnexpectedEOF` propagates), then throw `InvalidCharacter` if the character
read differs from the expected one. -/
def expect_char (c : Char) (l : List Char) : Result (List Char) :=
  match get_char l with
  | .error e => .error e
  | .ok (x, t) => if x ≠ c then .error .invalidCharacter else .ok t

/-- `Parser::operation` of the exceptions variant: `get_char` (propagating
`UnexpectedEOF`), then the operator `switch` with an `InvalidOperator`
default. -/
def operation (l : List Char) : Result (Op × List Char) :=
  match get_char l with
  | .error e => .error e
  | .ok (c, t) =>
    match charToOp c with
    | some op => .ok (op, t)
    | none => .error .invalidOperator

/-- `Parser::number` of the exceptions variant:
`while (isdigit(peek())) { char c = get_char(); result *= 10; result += c - '0'; }`.
The recursive call is on the tail `t`, which is `get_char`'s advanced
cursor whenever the guard holds (the guard implies the input is
non-empty). -/
def number (result : Int) : List Char → Result (Int × List Char)
  | [] => .ok (result, [])
  | c :: t =>
    if isdigit (peek (c :: t)) then
      match get_char (c :: t) with
      | .error e => .error e
      | .ok (d, _) => number (i64 (i64 (result * 10) + ((d.toNat : Int) - 48))) t
    else .ok (result, c :: t)

mutual

/-- `Parser::expression` of the exceptions variant, with fuel for the
mutual recursion. -/
def expression : Nat → List Char → Option (Result (Int × List Char))
  | 0, _ => none
  | fuel + 1, l =>
    if peek (skip_whitespace l) = '(' then
      match get_char (skip_whitespace l) with
      | .error e => some (.error e)
      | .ok (_, t) =>
        match expression fuel (skip_whitespace t) with
        | none => none
        | some (.error e) => some (.error e)
        | some (.ok (v, m)) =>
          match expect_char ')' (skip_whitespace m) with
          | .error e => some (.error e)
          | .ok r => some (.ok (v, r))
    else if '0' ≤ peek (skip_whitespace l) ∧ peek (skip_whitespace l) ≤ '9' then
      some (number 0 (skip_whitespace l))
    else
      inner_expression fuel (skip_whitespace l)

/-- `Parser::inner_expression` of the exceptions variant: `operation`,
then the left and right operand `expression`s, then the arithmetic
`switch`. -/
def inner_expression : Nat → List Char → Option (Result (Int × List Char))
  | 0, _ => none
  | fuel + 1, l =>
    match operation l with
    | .error e => some (.error e)
    | .ok (op, t) =>
      match expression fuel t with
      | none => none
      | some (.error e) => some (.error e)
      | some (.ok (left, m1)) =>
        match expression fuel m1 with
        | none => none
        | some (.error e) => some (.error e)
        | some (.ok (right, m2)) => some (.ok (apply_op op left right, m2))

end

/-- The internal parse of `execute`: `Parser::expression` on the whole
input, at the provably sufficient fuel `2 * length + 2`. -/
def run (l : List Char) : Option (Result (Int × List Char)) :=
  expression (2 * l.length + 2) l

/-- `ParserWithExceptions::execute`: run `expression` and catch any thrown
`Error`, mapping it to `0`. -/
def execute (s : String) : Int :=
  match run s.toList with
  | some (.ok (v, _)) => v
  | some (.error _) => 0
  | none => 0

/-- The internal classification of a parse: the raw value-or-`ErrorKind`
outcome of `p.expression()`, before `execute` collapses errors to `0`
(the internal / test-only surface of design §6). -/
def classify (s : String) : Result Int :=
  match run s.toList with
  | some (.ok (v, _)) => .ok v
  | some (.error e) => .error e
  | none => .ok 0

end ParserWithExceptions

namespace ParserWithResults

/-- `Parser::get_char` of the results variant: at end of input returns
`UnexpectedEOF` with the cursor unmoved, otherwise `*p++`. -/
def get_char : List Char → Result Char × List Char
  | [] => (.error .unexpectedEOF, [])
  | c :: t => (.ok c, t)

/-- `Parser::expect_char` of the results variant: `get_char`'s error (only
`UnexpectedEOF`) is returned as is; a character that was read but differs
from the expected one yields `InvalidCharacter`. -/
def expect_char (c : Char) (l : List Char) : Result Char × List Char :=
  match get_char l with
  | (.error e, t) => (.error e, t)
  | (.ok x, t) => if x ≠ c then (.error .invalidCharacter, t) else (.ok x, t)

/-- `Parser::operation` of the results variant. -/
def operation (l : List Char) : Result Op × List Char :=
  match get_char l with
  | (.error e, t) => (.error e, t)
  | (.ok c, t) =>
    match charToOp c with
    | some op => (.ok op, t)
    | none => (.error .invalidOperator, t)

/-- `Parser::number` of the results variant, including the (unreachable)
propagation of a `get_char` error inside the digit loop.  The recursive
call is on the tail `t`, which is `get_char`'s advanced cursor whenever
the guard holds. -/
def number (result : Int) : List Char → Result Int × List Char
  | [] => (.ok result, [])
  | c :: t =>
    if isdigit (peek (c :: t)) then
      match get_char (c :: t) with
      | (.error e, r) => (.error e, r)
      | (.ok d, _) => number (i64 (i64 (result * 10) + ((d.toNat : Int) - 48))) t
    else (.ok result, c :: t)

mutual

/-- `Parser::expression` of the results variant, with fuel for the mutual
recursion.  In the parenthesis branch the source discards the `Result` of
`get_char()` and keeps only the advanced cursor, hence `(get_char _).2`. -/
def expression : Nat → List Char → Option (Result Int × List Char)
  | 0, _ => none
  | fuel + 1, l =>
    if peek (skip_whitespace l) = '(' then
      match expression fuel (skip_whitespace (get_char (skip_whitespace l)).2) with
      | none => none
      | some (.error e, m) => some (.error e, m)
      | some (.ok v, m) =>
        match expect_char ')' (skip_whitespace m) with
        | (.error e, r) => some (.error e, r)
        | (.ok _, r) => some (.ok v, r)
    else if '0' ≤ peek (skip_whitespace l) ∧ peek (skip_whitespace l) ≤ '9' then
      some (number 0 (skip_whitespace l))
    else
      inner_expression fuel (skip_whitespace l)

/-- `Parser::inner_expression` of the results variant: `operation`, an
early return on its error, the two operand `expression`s with early
returns, then the arithmetic `switch`. -/
def inner_expression : Nat → List Char → Option (Result Int × List Char)
  | 0, _ => none
  | fuel + 1, l =>
    match operation l with
    | (.error e, t) => some (.error e, t)
    | (.ok op, t) =>
      match expression fuel t with
      | none => none
      | some (.error e, m1) => some (.error e, m1)
      | some (.ok left, m1) =>
        match expression fuel m1 with
        | none => none
        | some (.error e, m2) => some (.error e, m2)
        | some (.ok right, m2) => some (.ok (apply_op op left right), m2)

end

/-- The internal parse of `execute`: `Parser::expression` on the whole
input, at the provably sufficient fuel `2 * length + 2`. -/
def run (l : List Char) : Option (Result Int × List Char) :=
  expression (2 * l.length + 2) l

/-- `ParserWithResults::execute`: run `expression`, return the value on
success and `0` on error. -/
def execute (s : String) : Int :=
  match run s.toList with
  | some (.ok v, _) => v
  | some (.error _, _) => 0
  | none => 0

/-- The internal classification of a parse: the raw value-or-`ErrorKind`
outcome of `p.expression()`, before `execute` collapses errors to `0`
(the internal / test-only surface of design §6). -/
def classify (s : String) : Result Int :=
  match run s.toList with
  | some (res, _) => res
  | none => .ok 0

end ParserWithResults

/-- The accumulating fold performed by the digit loop of `number` (both
variants): `result *= 10; result += c - '0';` on wrapped `int64_t`
arithmetic. -/
def digitsFold (acc : Int) (ds : List Char) : Int :=
  ds.foldl (fun r c => i64 (i64 (r * 10) + ((c.toNat : Int) - 48))) acc

/-- Specification-side value of a digit string: the exact (unbounded)
integer obtained by folding `result = result * 10 + digit_value` from 0. -/
def digitsToInt (ds : List Char) : Int :=
  ds.foldl (fun r c => r * 10 + ((c.toNat : Int) - 48)) 0

/-- `digitsToInt` generalized to a running accumulator (the loop-invariant
form used in proofs; `digitsToInt ds = digitsToIntFrom 0 ds`). -/
def digitsToIntFrom (acc : Int) (ds : List Char) : Int :=
  ds.foldl (fun r c => r * 10 + ((c.toNat : Int) - 48)) acc

/-- Specification-side operator application: exact integer arithmetic with
truncating integer division. -/
def eval_op (op : Op) (a b : Int) : Int :=
  match op with
  | .add => a + b
  | .sub => a - b
  | .mul => a * b
  | .div => Int.tdiv a b

/-- Modelled from the spec (§4 grammar and rules): `SpecEval l v r` holds
when the input `l` is a well-formed program of the grammar

```
expression := '(' expression ')' | digit+ | operator expression expression
```

whose leading expression (after the whitespace skipped before each token)
evaluates, eagerly and bottom-up with truncating integer division, to the
mathematical integer `v`, leaving the trailing text `r` unconsumed.  A
`digit+` literal is the *maximal* leading run of decimal digits.  The
bounds on `v` restrict the relation to programs whose (sub)results all fit
in `int64_t`, where exact arithmetic and the implementation's wrapped
arithmetic agree; outside those bounds the spec prescribes no mathematical
value (`int64_t` overflow wraps, unchecked). -/
inductive SpecEval : List Char → Int → List Char → Prop where
  | num (l d r : List Char) (v : Int)
      (hd : skip_whitespace l = d)
      (hdig : isdigit (peek d) = true)
      (hv : v = digitsToInt (d.takeWhile isdigit))
      (hr : r = d.dropWhile isdigit)
      (hhi : v ≤ 9223372036854775807)
      : SpecEval l v r
  | paren (l t m r : List Char) (v : Int)
      (hp : skip_whitespace l = '(' :: t)
      (he : SpecEval t v m)
      (hc : skip_whitespace m = ')' :: r)
      : SpecEval l v r
  | binop (l t m1 m2 : List Char) (c : Char) (op : Op) (v1 v2 v : Int)
      (hc : skip_whitespace l = c :: t)
      (hop : charToOp c = some op)
      (h1 : SpecEval t v1 m1)
      (h2 : SpecEval m1 v2 m2)
      (hv : v = eval_op op v1 v2)
      (hlo : -9223372036854775808 ≤ v)
      (hhi : v ≤ 9223372036854775807)
      : SpecEval l v m2

/-- Observable agreement between one outcome of the exceptions variant and
one outcome of the results variant: fuel exhaustion agrees, successes agree
in value and final cursor, failures agree in `ErrorKind` (the cursor at
which the results variant's error was produced is not observable: the
error is propagated unchanged to the top). -/
def ResultRel (a : Option (Result (Int × List Char)))
    (b : Option (Result Int × List Char)) : Prop :=
  match a, b with
  | none, none => True
  | some (.ok (v, r)), some (.ok v', r') => v = v' ∧ r = r'
  | some (.error e), some (.error e', _) => e = e'
  | _, _ => False

/-! ## Basic cursor lemmas -/

theorem skip_whitespace_suffix (l : List Char) : (skip_whitespace l).IsSuffix l := by
  induction l with
  | nil => exact List.suffix_refl _
  | cons c t ih =>
    by_cases h : iswspace c
    · simp only [skip_whitespace, h, if_true]
      exact ih.trans (List.suffix_cons c t)
    · simp only [skip_whitespace, h, if_false]
      exact List.suffix_refl _

theorem skip_whitespace_not_ws (l : List Char) :
    iswspace (peek (skip_whitespace l)) = false := by
  induction l with
  | nil => decide
  | cons c t ih =>
    by_cases h : iswspace c
    · simpa only [skip_whitespace, h, if_true] using ih
    · simp only [skip_whitespace, h, if_false, peek]
      exact Bool.of_not_eq_true h

theorem skip_whitespace_idem (l : List Char) :
    skip_whitespace (skip_whitespace l) = skip_whitespace l := by
  have h := skip_whitespace_not_ws l
  cases hs : skip_whitespace l with
  | nil => rfl
  | cons c t =>
    rw [hs] at h
    simp only [peek] at h
    simp [skip_whitespace, h]

/-! ## Characterization of the digit loop -/

theorem numberE_eq (l : List Char) :
    ∀ acc, ParserWithExceptions.number acc l =
      .ok (digitsFold acc (l.takeWhile isdigit), l.dropWhile isdigit) := by
  induction l with
  | nil => intro acc; simp [ParserWithExceptions.number, digitsFold]
  | cons c t ih =>
    intro acc
    by_cases h : isdigit c
    · simp only [ParserWithExceptions.number, peek, h, if_true,
        ParserWithExceptions.get_char, List.takeWhile_cons, List.dropWhile_cons, ih,
        digitsFold, List.foldl_cons]
    · simp [ParserWithExceptions.number, peek, h, digitsFold, List.takeWhile_cons,
        List.dropWhile_cons]

theorem numberR_eq (l : List Char) :
    ∀ acc, ParserWithResults.number acc l =
      (.ok (digitsFold acc (l.takeWhile isdigit)), l.dropWhile isdigit) := by
  induction l with
  | nil => intro acc; simp [ParserWithResults.number, digitsFold]
  | cons c t ih =>
    intro acc
    by_cases h : isdigit c
    · simp only [ParserWithResults.number, peek, h, if_true,
        ParserWithResults.get_char, List.takeWhile_cons, List.dropWhile_cons, ih,
        digitsFold, List.foldl_cons]
    · simp [ParserWithResults.number, peek, h, digitsFold, List.takeWhile_cons,
        List.dropWhile_cons]

/-! ## Facts about the operator switch -/

theorem charToOp_facts {c : Char} {op : Op} (h : charToOp c = some op) :
    c ≠ '(' ∧ ¬('0' ≤ c ∧ c ≤ '9') := by
  unfold charToOp at h
  split_ifs at h with h1 h2 h3 h4
  · subst h1; decide
  · subst h2; decide
  · subst h3; decide
  · subst h4; decide

/-! ## Pointwise agreement of the primitive operations -/

theorem operation_rel (l : List Char) :
    (∃ op t, ParserWithExceptions.operation l = .ok (op, t) ∧
      ParserWithResults.operation l = (.ok op, t)) ∨
    (∃ e t, ParserWithExceptions.operation l = .error e ∧
      ParserWithResults.operation l = (.error e, t)) := by
  cases l with
  | nil => exact Or.inr ⟨.unexpectedEOF, [], rfl, rfl⟩
  | cons c t =>
    cases hc : charToOp c with
    | some op =>
      refine Or.inl ⟨op, t, ?_, ?_⟩
      · simp [ParserWithExceptions.operation, ParserWithExceptions.get_char, hc]
      · simp [ParserWithResults.operation, ParserWithResults.get_char, hc]
    | none =>
      refine Or.inr ⟨.invalidOperator, t, ?_, ?_⟩
      · simp [ParserWithExceptions.operation, ParserWithExceptions.get_char, hc]
      · simp [ParserWithResults.operation, ParserWithResults.get_char, hc]

theorem expect_rel (c : Char) (l : List Char) :
    (∃ t, ParserWithExceptions.expect_char c l = .ok t ∧
      ∃ x, ParserWithResults.expect_char c l = (.ok x, t)) ∨
    (∃ e, ParserWithExceptions.expect_char c l = .error e ∧
      ∃ t, ParserWithResults.expect_char c l = (.error e, t)) := by
  cases l with
  | nil => exact Or.inr ⟨.unexpectedEOF, rfl, [], rfl⟩
  | cons x t =>
    by_cases hx : x = c
    · refine Or.inl ⟨t, ?_, x, ?_⟩
      · simp [ParserWithExceptions.expect_char, ParserWithExceptions.get_char, hx]
      · simp [ParserWithResults.expect_char, ParserWithResults.get_char, hx]
    · refine Or.inr ⟨.invalidCharacter, ?_, t, ?_⟩
      · simp [ParserWithExceptions.expect_char, ParserWithExceptions.get_char, hx]
      · simp [ParserWithResults.expect_char, ParserWithResults.get_char, hx]

/-! ## Observable equivalence of the two variants -/

theorem resultRel_inv {a : Option (Result (Int × List Char))}
    {b : Option (Result Int × List Char)} (h : ResultRel a b) :
    (a = none ∧ b = none) ∨
    (∃ v r, a = some (.ok (v, r)) ∧ b = some (.ok v, r)) ∨
    (∃ e r, a = some (.error e) ∧ b = some (.error e, r)) := by
  cases a with
  | none =>
    cases b with
    | none => exact Or.inl ⟨rfl, rfl⟩
    | some p =>
      obtain ⟨res, r⟩ := p
      cases res <;> simp [ResultRel] at h
  | some res =>
    cases res with
    | ok p =>
      obtain ⟨v, r⟩ := p
      cases b with
      | none => simp [ResultRel] at h
      | some q =>
        obtain ⟨res', r'⟩ := q
        cases res' with
        | ok v' =>
          obtain ⟨h1, h2⟩ := h
          subst h1; subst h2
          exact Or.inr (Or.inl ⟨v, r, rfl, rfl⟩)
        | error e => simp [ResultRel] at h
    | error e =>
      cases b with
      | none => simp [ResultRel] at h
      | some q =>
        obtain ⟨res', r'⟩ := q
        cases res' with
        | ok v' => simp [ResultRel] at h
        | error e' =>
          have he : e = e' := h
          subst he
          exact Or.inr (Or.inr ⟨e, r', rfl, rfl⟩)

theorem rel_expr (fuel : Nat) :
    (∀ l, ResultRel (ParserWithExceptions.expression fuel l)
      (ParserWithResults.expression fuel l)) ∧
    (∀ l, ResultRel (ParserWithExceptions.inner_expression fuel l)
      (ParserWithResults.inner_expression fuel l)) := by
  induction fuel with
  | zero => exact ⟨fun l => trivial, fun l => trivial⟩
  | succ fuel ih =>
    obtain ⟨ihe, ihi⟩ := ih
    constructor
    · intro l
      simp only [ParserWithExceptions.expression, ParserWithResults.expression]
      by_cases hp : peek (skip_whitespace l) = '('
      · rw [if_pos hp, if_pos hp]
        cases hw : skip_whitespace l with
        | nil => rw [hw] at hp; exact absurd hp (by decide)
        | cons a t =>
          rw [hw] at hp
          simp only [peek] at hp
          subst hp
          simp only [ParserWithExceptions.get_char, ParserWithResults.get_char]
          rcases resultRel_inv (ihe (skip_whitespace t)) with ⟨hE, hR⟩ |
            ⟨v, m, hE, hR⟩ | ⟨e, m, hE, hR⟩ <;> simp only [hE, hR]
          · trivial
          · rcases expect_rel ')' (skip_whitespace m) with ⟨r, hXE, x, hXR⟩ |
              ⟨e, hXE, r, hXR⟩ <;> simp only [hXE, hXR]
            · exact ⟨rfl, rfl⟩
            · rfl
          · rfl
      · rw [if_neg hp, if_neg hp]
        by_cases hd : '0' ≤ peek (skip_whitespace l) ∧ peek (skip_whitespace l) ≤ '9'
        · rw [if_pos hd, if_pos hd, numberE_eq, numberR_eq]
          exact ⟨rfl, rfl⟩
        · rw [if_neg hd, if_neg hd]
          exact ihi (skip_whitespace l)
    · intro l
      simp only [ParserWithExceptions.inner_expression, ParserWithResults.inner_expression]
      rcases operation_rel l with ⟨op, t, hE, hR⟩ | ⟨e, t, hE, hR⟩ <;> simp only [hE, hR]
      · rcases resultRel_inv (ihe t) with ⟨h1E, h1R⟩ | ⟨v1, m1, h1E, h1R⟩ |
          ⟨e, m1, h1E, h1R⟩ <;> simp only [h1E, h1R]
        · trivial
        · rcases resultRel_inv (ihe m1) with ⟨h2E, h2R⟩ | ⟨v2, m2, h2E, h2R⟩ |
            ⟨e, m2, h2E, h2R⟩ <;> simp only [h2E, h2R]
          · trivial
          · exact ⟨rfl, rfl⟩
          · rfl
        · rfl
      · rfl

/-! ## The cursor only moves forward: suffix lemmas -/

theorem get_charR_suffix (l : List Char) :
    (ParserWithResults.get_char l).2.IsSuffix l := by
  cases l with
  | nil => exact List.suffix_refl _
  | cons c t => exact List.suffix_cons c t

theorem expectR_suffix (c : Char) (l : List Char) :
    (ParserWithResults.expect_char c l).2.IsSuffix l := by
  cases l with
  | nil => exact List.suffix_refl _
  | cons x t =>
    by_cases hx : x = c <;>
      simp [ParserWithResults.expect_char, ParserWithResults.get_char, hx]

theorem operationR_suffix (l : List Char) :
    (ParserWithResults.operation l).2.IsSuffix l := by
  cases l with
  | nil => exact List.suffix_refl _
  | cons c t =>
    cases hc : charToOp c <;>
      simp [ParserWithResults.operation, ParserWithResults.get_char, hc]

theorem numberR_suffix (acc : Int) (l : List Char) :
    (ParserWithResults.number acc l).2.IsSuffix l := by
  rw [numberR_eq]
  exact List.dropWhile_suffix _

theorem operationR_ok_len {l t : List Char} {op : Op}
    (h : ParserWithResults.operation l = (.ok op, t)) :
    t.length + 1 = l.length := by
  cases l with
  | nil => simp [ParserWithResults.operation, ParserWithResults.get_char] at h
  | cons c t' =>
    cases hc : charToOp c <;>
      simp [ParserWithResults.operation, ParserWithResults.get_char, hc] at h
    obtain ⟨-, ht⟩ := h
    subst ht
    rfl

theorem suffixR_expr (fuel : Nat) :
    (∀ l res r, ParserWithResults.expression fuel l = some (res, r) →
      r.IsSuffix l) ∧
    (∀ l res r, ParserWithResults.inner_expression fuel l = some (res, r) →
      r.IsSuffix l) := by
  induction fuel with
  | zero =>
    constructor <;> intro l res r h <;>
      simp [ParserWithResults.expression, ParserWithResults.inner_expression] at h
  | succ fuel ih =>
    obtain ⟨ihe, ihi⟩ := ih
    constructor
    · intro l res r h
      simp only [ParserWithResults.expression] at h
      by_cases hp : peek (skip_whitespace l) = '('
      · rw [if_pos hp] at h
        cases hE : ParserWithResults.expression fuel
            (skip_whitespace (ParserWithResults.get_char (skip_whitespace l)).2) with
        | none => simp only [hE] at h; exact Option.noConfusion h
        | some p =>
          obtain ⟨res1, m⟩ := p
          have hm : m.IsSuffix l :=
            (ihe _ _ _ hE).trans ((skip_whitespace_suffix _).trans
              ((get_charR_suffix _).trans (skip_whitespace_suffix l)))
          cases res1 with
          | error e =>
            simp only [hE, Option.some.injEq, Prod.mk.injEq] at h
            obtain ⟨-, hr⟩ := h
            subst hr
            exact hm
          | ok v =>
            simp only [hE] at h
            cases hX : ParserWithResults.expect_char ')' (skip_whitespace m) with
            | mk res2 r2 =>
              have hr2 : r2.IsSuffix l := by
                have hs := expectR_suffix ')' (skip_whitespace m)
                rw [hX] at hs
                exact hs.trans ((skip_whitespace_suffix m).trans hm)
              rw [hX] at h
              cases res2 <;> simp only [Option.some.injEq, Prod.mk.injEq] at h <;>
                obtain ⟨-, hr⟩ := h <;> subst hr <;> exact hr2
      · rw [if_neg hp] at h
        by_cases hd : '0' ≤ peek (skip_whitespace l) ∧ peek (skip_whitespace l) ≤ '9'
        · rw [if_pos hd, numberR_eq] at h
          simp only [Option.some.injEq, Prod.mk.injEq] at h
          obtain ⟨-, hr⟩ := h
          subst hr
          exact (List.dropWhile_suffix _).trans (skip_whitespace_suffix l)
        · rw [if_neg hd] at h
          exact (ihi _ _ _ h).trans (skip_whitespace_suffix l)
    · intro l res r h
      simp only [ParserWithResults.inner_expression] at h
      cases hop : ParserWithResults.operation l with
      | mk opres t =>
        have ht : t.IsSuffix l := by
          have hs := operationR_suffix l
          rw [hop] at hs
          exact hs
        cases opres with
        | error e =>
          simp only [hop, Option.some.injEq, Prod.mk.injEq] at h
          obtain ⟨-, hr⟩ := h
          subst hr
          exact ht
        | ok op =>
          simp only [hop] at h
          cases hE1 : ParserWithResults.expression fuel t with
          | none => simp only [hE1] at h; exact Option.noConfusion h
          | some p =>
            obtain ⟨res1, m1⟩ := p
            have hm1 : m1.IsSuffix l := (ihe _ _ _ hE1).trans ht
            cases res1 with
            | error e =>
              simp only [hE1, Option.some.injEq, Prod.mk.injEq] at h
              obtain ⟨-, hr⟩ := h
              subst hr
              exact hm1
            | ok left =>
              simp only [hE1] at h
              cases hE2 : ParserWithResults.expression fuel m1 with
              | none => simp only [hE2] at h; exact Option.noConfusion h
              | some q =>
                obtain ⟨res2, m2⟩ := q
                have hm2 : m2.IsSuffix l := (ihe _ _ _ hE2).trans hm1
                cases res2 <;>
                  simp only [hE2, Option.some.injEq, Prod.mk.injEq] at h <;>
                  obtain ⟨-, hr⟩ := h <;> subst hr <;> exact hm2

/-! ## Termination: the chosen fuel is always sufficient -/

theorem fuelR_expr (fuel : Nat) :
    (∀ l, 2 * l.length + 2 ≤ fuel → ParserWithResults.expression fuel l ≠ none) ∧
    (∀ l, 2 * l.length + 1 ≤ fuel →
      ParserWithResults.inner_expression fuel l ≠ none) := by
  induction fuel with
  | zero => constructor <;> intro l h <;> omega
  | succ fuel ih =>
    obtain ⟨ihe, ihi⟩ := ih
    constructor
    · intro l hlen
      simp only [ParserWithResults.expression]
      by_cases hp : peek (skip_whitespace l) = '('
      · rw [if_pos hp]
        cases hw : skip_whitespace l with
        | nil => rw [hw] at hp; exact absurd hp (by decide)
        | cons a t =>
          have hlt : t.length + 1 ≤ l.length := by
            have hs := (skip_whitespace_suffix l).length_le
            rw [hw] at hs
            simpa using hs
          simp only [ParserWithResults.get_char]
          cases hE : ParserWithResults.expression fuel (skip_whitespace t) with
          | none =>
            refine absurd hE (ihe _ ?_)
            have := (skip_whitespace_suffix t).length_le
            omega
          | some p =>
            obtain ⟨res1, m⟩ := p
            cases res1 with
            | error e => simp [hE]
            | ok v =>
              simp only [hE]
              cases hX : ParserWithResults.expect_char ')' (skip_whitespace m) with
              | mk res2 r2 => cases res2 <;> simp
      · rw [if_neg hp]
        by_cases hd : '0' ≤ peek (skip_whitespace l) ∧ peek (skip_whitespace l) ≤ '9'
        · rw [if_pos hd]
          simp
        · rw [if_neg hd]
          refine ihi _ ?_
          have := (skip_whitespace_suffix l).length_le
          omega
    · intro l hlen
      simp only [ParserWithResults.inner_expression]
      cases hop : ParserWithResults.operation l with
      | mk opres t =>
        cases opres with
        | error e => simp
        | ok op =>
          have hlt : t.length + 1 = l.length := operationR_ok_len hop
          cases hE1 : ParserWithResults.expression fuel t with
          | none => exact absurd hE1 (ihe _ (by omega))
          | some p =>
            obtain ⟨res1, m1⟩ := p
            cases res1 with
            | error e => simp [hE1]
            | ok left =>
              simp only [hE1]
              have hm1 : m1.length ≤ t.length :=
                ((suffixR_expr fuel).1 _ _ _ hE1).length_le
              cases hE2 : ParserWithResults.expression fuel m1 with
              | none => exact absurd hE2 (ihe _ (by omega))
              | some q =>
                obtain ⟨res2, m2⟩ := q
                cases res2 <;> simp [hE2]

/-! ## Exact versus wrapped `int64_t` arithmetic -/

theorem i64_id {n : Int} (hlo : -9223372036854775808 ≤ n)
    (hhi : n ≤ 9223372036854775807) : i64 n = n := by
  unfold i64
  omega

theorem apply_op_eval (op : Op) (a b : Int) :
    apply_op op a b = i64 (eval_op op a b) := by
  cases op <;> rfl

theorem isdigit_bounds {c : Char} (h : isdigit c = true) :
    48 ≤ c.toNat ∧ c.toNat ≤ 57 := by
  have h' := of_decide_eq_true h
  exact ⟨h'.1, h'.2⟩

theorem digitsToIntFrom_nil (acc : Int) : digitsToIntFrom acc [] = acc := rfl

theorem digitsToIntFrom_cons (acc : Int) (c : Char) (t : List Char) :
    digitsToIntFrom acc (c :: t) =
      digitsToIntFrom (acc * 10 + ((c.toNat : Int) - 48)) t := rfl

theorem digitsToIntFrom_ge (ds : List Char) :
    ∀ acc, (∀ c ∈ ds, isdigit c = true) → 0 ≤ acc →
      acc ≤ digitsToIntFrom acc ds := by
  induction ds with
  | nil => intro acc _ _; simp [digitsToIntFrom_nil]
  | cons c t ih =>
    intro acc hd h0
    have hc := isdigit_bounds (hd c (by simp))
    rw [digitsToIntFrom_cons]
    have hstep : acc ≤ acc * 10 + ((c.toNat : Int) - 48) := by omega
    exact hstep.trans (ih _ (fun x hx => hd x (by simp [hx])) (by omega))

theorem digitsFold_eq_exact (ds : List Char) :
    ∀ acc, (∀ c ∈ ds, isdigit c = true) → 0 ≤ acc →
      digitsToIntFrom acc ds ≤ 9223372036854775807 →
      digitsFold acc ds = digitsToIntFrom acc ds := by
  induction ds with
  | nil => intro acc _ _ _; rfl
  | cons c t ih =>
    intro acc hd h0 hmax
    have hc := isdigit_bounds (hd c (by simp))
    have hd' : ∀ x ∈ t, isdigit x = true := fun x hx => hd x (by simp [hx])
    rw [digitsToIntFrom_cons] at hmax
    have h0' : 0 ≤ acc * 10 + ((c.toNat : Int) - 48) := by omega
    have hub : acc * 10 + ((c.toNat : Int) - 48) ≤ 9223372036854775807 :=
      (digitsToIntFrom_ge t _ hd' h0').trans hmax
    have e1 : i64 (acc * 10) = acc * 10 := i64_id (by omega) (by omega)
    have e2 : i64 (acc * 10 + ((c.toNat : Int) - 48)) =
        acc * 10 + ((c.toNat : Int) - 48) := i64_id (by omega) (by omega)
    calc digitsFold acc (c :: t)
        = digitsFold (i64 (i64 (acc * 10) + ((c.toNat : Int) - 48))) t := rfl
      _ = digitsFold (acc * 10 + ((c.toNat : Int) - 48)) t := by rw [e1, e2]
      _ = digitsToIntFrom (acc * 10 + ((c.toNat : Int) - 48)) t := ih _ hd' h0' hmax
      _ = digitsToIntFrom acc (c :: t) := (digitsToIntFrom_cons _ _ _).symm

/-! ## Well-formed programs are parsed to their specified value -/

theorem SpecEval_suffix {l : List Char} {v : Int} {r : List Char}
    (h : SpecEval l v r) : r.IsSuffix l := by
  induction h with
  | num l d r v hd hdig hv hr hhi =>
    subst hd
    subst hr
    exact (List.dropWhile_suffix _).trans (skip_whitespace_suffix l)
  | paren l t m r v hp he hc ih =>
    have h1 : r.IsSuffix (skip_whitespace m) := by
      rw [hc]
      exact List.suffix_cons ')' r
    have h3 : t.IsSuffix (skip_whitespace l) := by
      rw [hp]
      exact List.suffix_cons '(' t
    exact ((h1.trans (skip_whitespace_suffix m)).trans ih).trans
      (h3.trans (skip_whitespace_suffix l))
  | binop l t m1 m2 c op v1 v2 v hc hop h1 h2 hv hlo hhi ih1 ih2 =>
    have h3 : t.IsSuffix (skip_whitespace l) := by
      rw [hc]
      exact List.suffix_cons c t
    exact (ih2.trans ih1).trans (h3.trans (skip_whitespace_suffix l))

theorem exprR_skipws (fuel : Nat) (l : List Char) :
    ParserWithResults.expression fuel (skip_whitespace l) =
      ParserWithResults.expression fuel l := by
  cases fuel with
  | zero => rfl
  | succ fuel => simp only [ParserWithResults.expression, skip_whitespace_idem]

theorem specR_correct {l : List Char} {v : Int} {r : List Char}
    (h : SpecEval l v r) :
    ∀ fuel, 2 * l.length + 2 ≤ fuel →
      ParserWithResults.expression fuel l = some (.ok v, r) := by
  induction h with
  | num l d r v hd hdig hv hr hhi =>
    intro fuel hfuel
    obtain ⟨f, rfl⟩ : ∃ f, fuel = f + 1 := ⟨fuel - 1, by omega⟩
    simp only [ParserWithResults.expression]
    subst hd
    have hg : '0' ≤ peek (skip_whitespace l) ∧ peek (skip_whitespace l) ≤ '9' :=
      of_decide_eq_true hdig
    have hnp : ¬(peek (skip_whitespace l) = '(') := by
      intro hq
      rw [hq] at hdig
      exact absurd hdig (by decide)
    rw [if_neg hnp, if_pos hg, numberR_eq]
    have hdig' : ∀ x ∈ (skip_whitespace l).takeWhile isdigit, isdigit x = true :=
      fun x hx => List.mem_takeWhile_imp hx
    have hmax : digitsToIntFrom 0 ((skip_whitespace l).takeWhile isdigit) ≤
        9223372036854775807 := by
      rw [show digitsToIntFrom 0 ((skip_whitespace l).takeWhile isdigit) =
        digitsToInt ((skip_whitespace l).takeWhile isdigit) from rfl, ← hv]
      exact hhi
    rw [digitsFold_eq_exact _ 0 hdig' (le_refl 0) hmax, hv, hr]
    rfl
  | paren l t m r v hp he hc ih =>
    intro fuel hfuel
    obtain ⟨f, rfl⟩ : ∃ f, fuel = f + 1 := ⟨fuel - 1, by omega⟩
    simp only [ParserWithResults.expression]
    have hpk : peek (skip_whitespace l) = '(' := by rw [hp]; rfl
    rw [if_pos hpk, hp]
    simp only [ParserWithResults.get_char]
    have hlen : t.length + 1 ≤ l.length := by
      have hs := (skip_whitespace_suffix l).length_le
      rw [hp] at hs
      simpa using hs
    rw [exprR_skipws]
    simp only [ih f (by omega)]
    rw [hc]
    simp [ParserWithResults.expect_char, ParserWithResults.get_char]
  | binop l t m1 m2 c op v1 v2 v hc hop h1 h2 hv hlo hhi ih1 ih2 =>
    intro fuel hfuel
    obtain ⟨f, rfl⟩ : ∃ f, fuel = f + 1 := ⟨fuel - 1, by omega⟩
    simp only [ParserWithResults.expression]
    obtain ⟨hc1, hc2⟩ := charToOp_facts hop
    have hpk : peek (skip_whitespace l) = c := by rw [hc]; rfl
    have hnp : ¬(peek (skip_whitespace l) = '(') := by rw [hpk]; exact hc1
    have hnd : ¬('0' ≤ peek (skip_whitespace l) ∧ peek (skip_whitespace l) ≤ '9') := by
      rw [hpk]; exact hc2
    rw [if_neg hnp, if_neg hnd, hc]
    have hlen : t.length + 1 ≤ l.length := by
      have hs := (skip_whitespace_suffix l).length_le
      rw [hc] at hs
      simpa using hs
    obtain ⟨g, rfl⟩ : ∃ g, f = g + 1 := ⟨f - 1, by omega⟩
    simp only [ParserWithResults.inner_expression, ParserWithResults.operation,
      ParserWithResults.get_char, hop]
    have hm1 : m1.length ≤ t.length := (SpecEval_suffix h1).length_le
    simp only [ih1 g (by omega), ih2 g (by omega)]
    have happ : apply_op op v1 v2 = v := by
      rw [apply_op_eval, ← hv]
      exact i64_id hlo hhi
    rw [happ]

/-! ## Transfer to the exceptions variant and to the public surface -/

theorem fuelE_expr (fuel : Nat) (l : List Char) (h : 2 * l.length + 2 ≤ fuel) :
    ParserWithExceptions.expression fuel l ≠ none := by
  intro hnone
  rcases resultRel_inv ((rel_expr fuel).1 l) with ⟨hE, hR⟩ | ⟨v, r, hE, hR⟩ |
    ⟨e, r, hE, hR⟩
  · exact (fuelR_expr fuel).1 l h hR
  · rw [hE] at hnone; exact Option.noConfusion hnone
  · rw [hE] at hnone; exact Option.noConfusion hnone

theorem fuelR_inner (fuel : Nat) (l : List Char) (h : 2 * l.length + 1 ≤ fuel) :
    ParserWithResults.inner_expression fuel l ≠ none :=
  (fuelR_expr fuel).2 l h

theorem fuelE_inner (fuel : Nat) (l : List Char) (h : 2 * l.length + 1 ≤ fuel) :
    ParserWithExceptions.inner_expression fuel l ≠ none := by
  intro hnone
  rcases resultRel_inv ((rel_expr fuel).2 l) with ⟨hE, hR⟩ | ⟨v, r, hE, hR⟩ |
    ⟨e, r, hE, hR⟩
  · exact (fuelR_expr fuel).2 l h hR
  · rw [hE] at hnone; exact Option.noConfusion hnone
  · rw [hE] at hnone; exact Option.noConfusion hnone

theorem suffixE_expr {fuel : Nat} {l : List Char} {v : Int} {r : List Char}
    (h : ParserWithExceptions.expression fuel l = some (.ok (v, r))) :
    r.IsSuffix l := by
  rcases resultRel_inv ((rel_expr fuel).1 l) with ⟨hE, hR⟩ | ⟨v', r', hE, hR⟩ |
    ⟨e, r', hE, hR⟩
  · rw [h] at hE; exact Option.noConfusion hE
  · rw [h] at hE
    simp only [Option.some.injEq, Result.ok.injEq, Prod.mk.injEq] at hE
    obtain ⟨-, hr⟩ := hE
    subst hr
    exact (suffixR_expr fuel).1 l _ _ hR
  · rw [h] at hE
    simp at hE

theorem specE_correct {l : List Char} {v : Int} {r : List Char}
    (h : SpecEval l v r) {fuel : Nat} (hf : 2 * l.length + 2 ≤ fuel) :
    ParserWithExceptions.expression fuel l = some (.ok (v, r)) := by
  have hRun := specR_correct h fuel hf
  rcases resultRel_inv ((rel_expr fuel).1 l) with ⟨hE, hR⟩ | ⟨v', r', hE, hR⟩ |
    ⟨e, r', hE, hR⟩
  · rw [hRun] at hR; exact Option.noConfusion hR
  · rw [hRun] at hR
    simp only [Option.some.injEq, Prod.mk.injEq, Result.ok.injEq] at hR
    obtain ⟨hv, hr⟩ := hR
    subst hv
    subst hr
    exact hE
  · rw [hRun] at hR
    simp at hR

theorem executeR_of_spec {s : String} {v : Int} {r : List Char}
    (h : SpecEval s.toList v r) : ParserWithResults.execute s = v := by
  have hr := specR_correct h (2 * s.toList.length + 2) (le_refl _)
  simp only [ParserWithResults.execute, ParserWithResults.run, hr]

theorem executeE_of_spec {s : String} {v : Int} {r : List Char}
    (h : SpecEval s.toList v r) : ParserWithExceptions.execute s = v := by
  have hr := specE_correct h (le_refl (2 * s.toList.length + 2))
  simp only [ParserWithExceptions.execute, ParserWithExceptions.run, hr]

/-! ## The claims -/

/-- C1: for every input string, the exception-based parser variant and the
explicit-result parser variant are observably equivalent: both yield the
same Ok/Err classification, the same `ErrorKind` when they fail, and the
same `int64_t` value when they succeed, hence the same public `execute`
result. -/
theorem claim1_variants_equivalent (s : String) :
    ParserWithExceptions.classify s = ParserWithResults.classify s ∧
    ParserWithExceptions.execute s = ParserWithResults.execute s := by
  rcases resultRel_inv ((rel_expr (2 * s.toList.length + 2)).1 s.toList) with
    ⟨hE, hR⟩ | ⟨v, r, hE, hR⟩ | ⟨e, r, hE, hR⟩ <;>
    constructor <;>
    simp only [ParserWithExceptions.classify, ParserWithExceptions.execute,
      ParserWithResults.classify, ParserWithResults.execute,
      ParserWithExceptions.run, ParserWithResults.run, hE, hR]

/-- C2: `execute` always returns an `int64_t` value and never signals an
error to the caller: whenever the internal parse classifies a failure (any
`ErrorKind`), `execute` returns exactly 0 — in both variants. -/
theorem claim2_errors_collapse_to_zero (s : String) :
    (∀ e, ParserWithExceptions.classify s = .error e →
      ParserWithExceptions.execute s = 0) ∧
    (∀ e, ParserWithResults.classify s = .error e →
      ParserWithResults.execute s = 0) := by
  constructor
  · intro e he
    simp only [ParserWithExceptions.classify] at he
    simp only [ParserWithExceptions.execute]
    cases hrun : ParserWithExceptions.run s.toList with
    | none => simp only [hrun] at he; exact Result.noConfusion he
    | some res =>
      cases res with
      | ok p =>
        obtain ⟨v, r⟩ := p
        simp only [hrun] at he
        exact Result.noConfusion he
      | error e' => simp [hrun]
  · intro e he
    simp only [ParserWithResults.classify] at he
    simp only [ParserWithResults.execute]
    cases hrun : ParserWithResults.run s.toList with
    | none => simp only [hrun] at he; exact Result.noConfusion he
    | some p =>
      obtain ⟨res, r⟩ := p
      cases res with
      | ok v => simp only [hrun] at he; exact Result.noConfusion he
      | error e' => simp [hrun]

/-- Witness for C2 at the concrete failing input `"+ 3"` (whose internal
classification is `UnexpectedEOF`). -/
theorem claim2_witness :
    ParserWithExceptions.execute "+ 3" = 0 ∧
    ParserWithResults.execute "+ 3" = 0 :=
  ⟨(claim2_errors_collapse_to_zero "+ 3").1 .unexpectedEOF (by decide),
   (claim2_errors_collapse_to_zero "+ 3").2 .unexpectedEOF (by decide)⟩

/-- C3: for every well-formed program of the grammar (an expression,
possibly followed by trailing text), `execute` returns the mathematically
correct value of the prefix expression under eager bottom-up evaluation
with truncating integer division; in particular the three concrete
scenarios of the spec. -/
theorem claim3_wellformed_programs_correct :
    (∀ (s : String) (v : Int) (r : List Char), SpecEval s.toList v r →
      ParserWithExceptions.execute s = v ∧ ParserWithResults.execute s = v) ∧
    (ParserWithExceptions.execute "+ 3 4" = 7 ∧
      ParserWithResults.execute "+ 3 4" = 7) ∧
    (ParserWithExceptions.execute "* (+ 1 2) 5" = 15 ∧
      ParserWithResults.execute "* (+ 1 2) 5" = 15) ∧
    (ParserWithExceptions.execute "- 10 (/ 20 4)" = 5 ∧
      ParserWithResults.execute "- 10 (/ 20 4)" = 5) :=
  ⟨fun _ _ _ h => ⟨executeE_of_spec h, executeR_of_spec h⟩,
   ⟨by decide, by decide⟩, ⟨by decide, by decide⟩, ⟨by decide, by decide⟩⟩

/-- Witness for C3 at the concrete well-formed program `"+ 3 4"`. -/
theorem claim3_witness :
    ParserWithExceptions.execute "+ 3 4" = 7 ∧
    ParserWithResults.execute "+ 3 4" = 7 := by
  have h1 : SpecEval [' ', '3', ' ', '4'] 3 [' ', '4'] :=
    SpecEval.num [' ', '3', ' ', '4'] ['3', ' ', '4'] [' ', '4'] 3
      (by decide) (by decide) (by decide) (by decide) (by decide)
  have h2 : SpecEval [' ', '4'] 4 [] :=
    SpecEval.num [' ', '4'] ['4'] [] 4
      (by decide) (by decide) (by decide) (by decide) (by decide)
  have hs : SpecEval "+ 3 4".toList 7 [] :=
    SpecEval.binop "+ 3 4".toList [' ', '3', ' ', '4'] [' ', '4'] []
      '+' Op.add 3 4 7 (by decide) (by decide) h1 h2
      (by decide) (by decide) (by decide)
  exact claim3_wellformed_programs_correct.1 "+ 3 4" 7 [] hs

/-- C4: `expect(')')` raises `InvalidCharacter` only when a character was
actually read and did not match: when the inner consume fails because the
input is exhausted, the classification surfaced is `UnexpectedEOF`, not
`InvalidCharacter`; concretely, `"(+ 1 2 "` classifies as `UnexpectedEOF`
while `"(+ 1 2 x"` classifies as `InvalidCharacter`. -/
theorem claim4_expect_eof_not_remapped :
    (∀ c : Char,
      ParserWithExceptions.expect_char c [] = .error .unexpectedEOF ∧
      ParserWithResults.expect_char c [] = (.error .unexpectedEOF, [])) ∧
    (∀ (c x : Char) (t : List Char), x ≠ c →
      ParserWithExceptions.expect_char c (x :: t) = .error .invalidCharacter ∧
      ParserWithResults.expect_char c (x :: t) = (.error .invalidCharacter, t)) ∧
    (ParserWithExceptions.classify "(+ 1 2 " = .error .unexpectedEOF ∧
      ParserWithResults.classify "(+ 1 2 " = .error .unexpectedEOF) ∧
    (ParserWithExceptions.classify "(+ 1 2 x" = .error .invalidCharacter ∧
      ParserWithResults.classify "(+ 1 2 x" = .error .invalidCharacter) := by
  refine ⟨fun c => ⟨rfl, rfl⟩, fun c x t hx => ⟨?_, ?_⟩,
    ⟨by decide, by decide⟩, ⟨by decide, by decide⟩⟩
  · simp [ParserWithExceptions.expect_char, ParserWithExceptions.get_char, hx]
  · simp [ParserWithResults.expect_char, ParserWithResults.get_char, hx]

/-- Witness for C4: a mismatching non-EOF character for an expected `')'`. -/
theorem claim4_witness :
    ParserWithExceptions.expect_char ')' ['x'] = .error .invalidCharacter ∧
    ParserWithResults.expect_char ')' ['x'] = (.error .invalidCharacter, []) :=
  claim4_expect_eof_not_remapped.2.1 ')' 'x' [] (by decide)

/-- C5: the three error classifications arise exactly in their defining
situations and are never conflated: a non-EOF character in operator
position that is none of the four operators classifies as
`InvalidOperator` (never `InvalidCharacter`); a non-EOF character that
does not match an expected literal classifies as `InvalidCharacter`; a
character required at end of input classifies as `UnexpectedEOF`. -/
theorem claim5_error_taxonomy :
    (∀ (c : Char) (t : List Char), charToOp c = none →
      ParserWithExceptions.operation (c :: t) = .error .invalidOperator ∧
      ParserWithResults.operation (c :: t) = (.error .invalidOperator, t)) ∧
    (∀ (ch x : Char) (t : List Char), x ≠ ch →
      ParserWithExceptions.expect_char ch (x :: t) = .error .invalidCharacter ∧
      ParserWithResults.expect_char ch (x :: t) = (.error .invalidCharacter, t)) ∧
    (ParserWithExceptions.get_char [] = .error .unexpectedEOF ∧
      ParserWithResults.get_char [] = (.error .unexpectedEOF, []) ∧
      ParserWithExceptions.operation [] = .error .unexpectedEOF ∧
      ParserWithResults.operation [] = (.error .unexpectedEOF, []) ∧
      (∀ c : Char,
        ParserWithExceptions.expect_char c [] = .error .unexpectedEOF ∧
        ParserWithResults.expect_char c [] = (.error .unexpectedEOF, []))) := by
  refine ⟨fun c t hc => ⟨?_, ?_⟩, fun ch x t hx => ⟨?_, ?_⟩,
    rfl, rfl, rfl, rfl, fun c => ⟨rfl, rfl⟩⟩
  · simp [ParserWithExceptions.operation, ParserWithExceptions.get_char, hc]
  · simp [ParserWithResults.operation, ParserWithResults.get_char, hc]
  · simp [ParserWithExceptions.expect_char, ParserWithExceptions.get_char, hx]
  · simp [ParserWithResults.expect_char, ParserWithResults.get_char, hx]

/-- Witness for C5: the character `'&'` in operator position. -/
theorem claim5_witness :
    ParserWithExceptions.operation ['&'] = .error .invalidOperator ∧
    ParserWithResults.operation ['&'] = (.error .invalidOperator, []) :=
  claim5_error_taxonomy.1 '&' [] (by decide)

/-- C6: `number` never fails: from any cursor position it folds the
maximal run of leading decimal digits via `result = result*10 +
digit_value` over wrapped `int64_t` arithmetic with no overflow check,
stops at the first non-digit (including end of input), and returns the
accumulator unchanged — in particular 0 — on an empty digit run. -/
theorem claim6_number_total_fold (acc : Int) (l : List Char) :
    (ParserWithExceptions.number acc l =
      .ok (digitsFold acc (l.takeWhile isdigit), l.dropWhile isdigit) ∧
     ParserWithResults.number acc l =
      (.ok (digitsFold acc (l.takeWhile isdigit)), l.dropWhile isdigit)) ∧
    (isdigit (peek l) = false →
      ParserWithExceptions.number acc l = .ok (acc, l) ∧
      ParserWithResults.number acc l = (.ok acc, l)) := by
  refine ⟨⟨numberE_eq l acc, numberR_eq l acc⟩, fun hnd => ?_⟩
  cases l with
  | nil => exact ⟨rfl, rfl⟩
  | cons c t =>
    have hc : isdigit c = false := by simpa [peek] using hnd
    rw [numberE_eq, numberR_eq]
    simp [List.takeWhile_cons, List.dropWhile_cons, hc, digitsFold]

/-- Witness for C6: an empty digit run (cursor on a non-digit) yields the
accumulator 0 without failing. -/
theorem claim6_witness :
    ParserWithExceptions.number 0 ['x'] = .ok (0, ['x']) ∧
    ParserWithResults.number 0 ['x'] = (.ok 0, ['x']) :=
  (claim6_number_total_fold 0 ['x']).2 (by decide)

/-- C7: `execute` does not require the whole input to be consumed: for
every input consisting of a well-formed leading expression followed by
arbitrary trailing characters (the unconsumed rest `r` of the parse), both
variants return the value of the leading expression, silently ignoring the
trailing characters. -/
theorem claim7_trailing_ignored (s : String) (v : Int) (r : List Char)
    (h : SpecEval s.toList v r) :
    (∃ e : List Char, s.toList = e ++ r) ∧
    ParserWithExceptions.execute s = v ∧
    ParserWithResults.execute s = v := by
  obtain ⟨e, he⟩ := SpecEval_suffix h
  exact ⟨⟨e, he.symm⟩, executeE_of_spec h, executeR_of_spec h⟩

/-- Witness for C7: the expression `"+ 3 4"` followed by the trailing text
`" junk"`, which is silently ignored. -/
theorem claim7_witness :
    (∃ e : List Char,
      "+ 3 4 junk".toList = e ++ [' ', 'j', 'u', 'n', 'k']) ∧
    ParserWithExceptions.execute "+ 3 4 junk" = 7 ∧
    ParserWithResults.execute "+ 3 4 junk" = 7 := by
  have h1 : SpecEval [' ', '3', ' ', '4', ' ', 'j', 'u', 'n', 'k'] 3
      [' ', '4', ' ', 'j', 'u', 'n', 'k'] :=
    SpecEval.num [' ', '3', ' ', '4', ' ', 'j', 'u', 'n', 'k']
      ['3', ' ', '4', ' ', 'j', 'u', 'n', 'k']
      [' ', '4', ' ', 'j', 'u', 'n', 'k'] 3
      (by decide) (by decide) (by decide) (by decide) (by decide)
  have h2 : SpecEval [' ', '4', ' ', 'j', 'u', 'n', 'k'] 4
      [' ', 'j', 'u', 'n', 'k'] :=
    SpecEval.num [' ', '4', ' ', 'j', 'u', 'n', 'k']
      ['4', ' ', 'j', 'u', 'n', 'k'] [' ', 'j', 'u', 'n', 'k'] 4
      (by decide) (by decide) (by decide) (by decide) (by decide)
  have hs : SpecEval "+ 3 4 junk".toList 7 [' ', 'j', 'u', 'n', 'k'] :=
    SpecEval.binop "+ 3 4 junk".toList
      [' ', '3', ' ', '4', ' ', 'j', 'u', 'n', 'k']
      [' ', '4', ' ', 'j', 'u', 'n', 'k'] [' ', 'j', 'u', 'n', 'k']
      '+' Op.add 3 4 7 (by decide) (by decide) h1 h2
      (by decide) (by decide) (by decide)
  exact claim7_trailing_ignored "+ 3 4 junk" 7 [' ', 'j', 'u', 'n', 'k'] hs

/-- C8: the cursor invariant: across every parsing operation the read
position is monotonically non-decreasing (the remaining input after the
operation is a suffix of the remaining input before it, so the position
never exceeds the input length), and no operation reads past the end of
the input without signaling `UnexpectedEOF`. -/
theorem claim8_cursor_invariant :
    (∀ l : List Char, (skip_whitespace l).IsSuffix l) ∧
    (∀ l : List Char, (ParserWithResults.get_char l).2.IsSuffix l) ∧
    (ParserWithExceptions.get_char [] = .error .unexpectedEOF ∧
      ParserWithResults.get_char [] = (.error .unexpectedEOF, [])) ∧
    (∀ (c : Char) (l : List Char),
      (ParserWithResults.expect_char c l).2.IsSuffix l) ∧
    (∀ l : List Char, (ParserWithResults.operation l).2.IsSuffix l) ∧
    (∀ (acc : Int) (l : List Char),
      (ParserWithResults.number acc l).2.IsSuffix l) ∧
    (∀ (fuel : Nat) (l : List Char) (res : Result Int) (r : List Char),
      ParserWithResults.expression fuel l = some (res, r) → r.IsSuffix l) ∧
    (∀ (fuel : Nat) (l : List Char) (v : Int) (r : List Char),
      ParserWithExceptions.expression fuel l = some (.ok (v, r)) →
        r.IsSuffix l) :=
  ⟨skip_whitespace_suffix, get_charR_suffix, ⟨rfl, rfl⟩, expectR_suffix,
   operationR_suffix, numberR_suffix,
   fun fuel l res r h => (suffixR_expr fuel).1 l res r h,
   fun _ _ _ _ h => suffixE_expr h⟩

/-- Witness for C8: a complete parse of `"7"` leaves the empty rest, a
suffix of the input. -/
theorem claim8_witness : List.IsSuffix [] ['7'] :=
  claim8_cursor_invariant.2.2.2.2.2.2.1 4 ['7'] (.ok 7) [] (by decide)

/-- C9: parsing terminates on every input string, well-formed or
malformed: fuel proportional to the input length (each recursive call
either consumes a character or moves to a strictly smaller suffix) is
always sufficient, so the embedded recursion never exhausts its fuel —
malformed input reaching end of input terminates through the
`UnexpectedEOF` failure path instead of recursing forever. -/
theorem claim9_termination (fuel : Nat) (l : List Char) :
    (2 * l.length + 2 ≤ fuel →
      ParserWithResults.expression fuel l ≠ none ∧
      ParserWithExceptions.expression fuel l ≠ none) ∧
    (2 * l.length + 1 ≤ fuel →
      ParserWithResults.inner_expression fuel l ≠ none ∧
      ParserWithExceptions.inner_expression fuel l ≠ none) :=
  ⟨fun h => ⟨(fuelR_expr fuel).1 l h, fuelE_expr fuel l h⟩,
   fun h => ⟨fuelR_inner fuel l h, fuelE_inner fuel l h⟩⟩

/-- Witness for C9 at the input `"+ 3 4"` with its sufficient fuel 12. -/
theorem claim9_witness :
    ParserWithResults.expression 12 "+ 3 4".toList ≠ none ∧
    ParserWithExceptions.expression 12 "+ 3 4".toList ≠ none :=
  (claim9_termination 12 "+ 3 4".toList).1 (by decide)

/-- C10: in the explicit-result variant, `number` always returns a success
value, never an error: the `UnexpectedEOF` branch after `get_char` inside
its digit loop is unreachable, because the loop only runs when
`isdigit(peek())` holds, and a digit `peek` (not the end-of-input sentinel
0) implies the cursor is not at end of input, so `get_char` cannot fail. -/
theorem claim10_number_never_errors :
    (∀ l : List Char, isdigit (peek l) = true →
      ∃ (c : Char) (t : List Char),
        ParserWithResults.get_char l = (.ok c, t)) ∧
    (∀ (acc : Int) (l : List Char), ∃ (v : Int) (r : List Char),
      ParserWithResults.number acc l = (.ok v, r)) := by
  constructor
  · intro l h
    cases l with
    | nil => exact absurd h (by decide)
    | cons c t => exact ⟨c, t, rfl⟩
  · intro acc l
    exact ⟨digitsFold acc (l.takeWhile isdigit), l.dropWhile isdigit,
      numberR_eq l acc⟩

/-- Witness for C10: a digit at the cursor guarantees `get_char` succeeds. -/
theorem claim10_witness :
    ∃ (c : Char) (t : List Char),
      ParserWithResults.get_char ['5'] = (.ok c, t) :=
  claim10_number_never_errors.1 ['5'] (by decide)
